import Mathlib

/-!
Verification of the poisoning subsystem of `umm_malloc` (`src/umm_poison.c`).

Shallow embedding: memory is a byte map `Nat → Nat`, machine pointers are
natural numbers, the configurable build-time constants
(`sizeof(UMM_POISONED_BLOCK_LEN_TYPE)`, `UMM_POISON_SIZE_BEFORE`,
`UMM_POISON_SIZE_AFTER`) are fields of a `Config` record, and the external
block allocator (umm_malloc proper) is modelled from the spec as an opaque
block table plus oracle functions for `umm_malloc` / `umm_realloc`.
-/

set_option maxRecDepth 4000

namespace UmmPoison

/-- Build-time configuration constants of the poisoning subsystem:
`lenW` is `sizeof(UMM_POISONED_BLOCK_LEN_TYPE)` in bytes, `szBefore` is
`UMM_POISON_SIZE_BEFORE`, `szAfter` is `UMM_POISON_SIZE_AFTER`. -/
structure Config where
  lenW : Nat
  szBefore : Nat
  szAfter : Nat
deriving DecidableEq, Repr

/-- `POISON_BYTE` from the source: the sentinel byte value `0xa5`. -/
def POISON_BYTE : Nat := 0xa5

/-- Byte-addressed memory: address to byte value. -/
def Mem : Type := Nat → Nat

/-- Write one byte `v` at address `a`. -/
def writeByte (m : Mem) (a v : Nat) : Mem :=
  fun x => if x = a then v else m x

/-- `memset(a, v, n)`: write byte `v` at addresses `[a, a+n)`. -/
def memset : Mem → Nat → Nat → Nat → Mem
  | m, _, _, 0 => m
  | m, a, v, n + 1 => memset (writeByte m a v) (a + 1) v n

/-- `put_poison` from the source: `memset(ptr, POISON_BYTE, poison_size)`. -/
def put_poison (m : Mem) (a n : Nat) : Mem :=
  memset m a POISON_BYTE n

/-- Store the low `w` bytes of `v` little-endian at `[a, a+w)`: the model of
the C store `*(UMM_POISONED_BLOCK_LEN_TYPE *)ptr = (UMM_POISONED_BLOCK_LEN_TYPE)v`
with a `w`-byte length type; the cast truncation is the per-byte `% 256`. -/
def storeLen : Mem → Nat → Nat → Nat → Mem
  | m, _, _, 0 => m
  | m, a, v, w + 1 => storeLen (writeByte m a (v % 256)) (a + 1) (v / 256) w

/-- Read a `w`-byte little-endian unsigned integer at `[a, a+w)`: the model of
the C load `*((UMM_POISONED_BLOCK_LEN_TYPE *)pc)`. -/
def readLen : Mem → Nat → Nat → Nat
  | _, _, 0 => 0
  | m, a, w + 1 => m a + 256 * readLen m (a + 1) w

/-- `poison_size` from the source: 0 for a zero size, otherwise
`UMM_POISON_SIZE_BEFORE + sizeof(UMM_POISONED_BLOCK_LEN_TYPE) + UMM_POISON_SIZE_AFTER`. -/
def poison_size (cfg : Config) (s : Nat) : Nat :=
  if s ≠ 0 then cfg.szBefore + cfg.lenW + cfg.szAfter else 0

/-- `check_poison` from the source: scan the `n` bytes at `[a, a+n)` and
return `true` iff every one equals `POISON_BYTE` (the C loop breaks at the
first mismatch; the diagnostic dump is pure output and is not modelled). -/
def check_poison : Mem → Nat → Nat → Bool
  | _, _, 0 => true
  | m, a, n + 1 => if m a = POISON_BYTE then check_poison m (a + 1) n else false

/-- Modelled from the spec: the external block allocator exposes a block
table whose entry `i` has a successor-index field (`UMM_NBLOCK(i)`, with one
reserved high bit as the free/used tag), a data-area address for each block
(`UMM_BLOCK(i).body.data`), a heap base address (`&UMM_HEAP[0]`) and a fixed
per-block byte stride (`UMM_BLOCKSIZE`). None of this code is under `src/`;
only the accessors named here are used by `umm_poison.c`. -/
structure Heap where
  nblock : Nat → Nat
  dataAddr : Nat → Nat
  base : Nat
  blockSize : Nat

/-- Modelled from the spec: `UMM_FREELIST_MASK`, the reserved high tag bit of
the 16-bit successor-index field; set means the block is free. -/
def UMM_FREELIST_MASK : Nat := 0x8000

/-- Modelled from the spec: `UMM_BLOCKNO_MASK`, the low bits of the 16-bit
successor-index field holding the successor block index. -/
def UMM_BLOCKNO_MASK : Nat := 0x7fff

/-- Which guard region a corruption report names: the `"before"` or `"after"`
string argument of `check_poison`. -/
inductive Side
  | before
  | after
deriving DecidableEq, Repr

/-- Observable outcome of `check_poison_block`: the boolean result, which
guard side (if any) was reported corrupt, and whether the
`"check_poison_block is called for free block"` usage error was logged. -/
structure CheckResult where
  ok : Bool
  failSide : Option Side
  usageError : Bool
deriving DecidableEq, Repr

/-- `check_poison_block` from the source. A free block (tag bit set in its
successor field) is only logged as a usage error and `ok` stays `true`.
For a used block the pre-guard at `data + lenW` is scanned first; on success
the length field is read back and the post-guard at
`data + lengthField - szAfter` is scanned. -/
def check_poison_block (cfg : Config) (H : Heap) (m : Mem) (b : Nat) : CheckResult :=
  if H.nblock b &&& UMM_FREELIST_MASK ≠ 0 then
    { ok := true, failSide := none, usageError := true }
  else
    let pc := H.dataAddr b
    if check_poison m (pc + cfg.lenW) cfg.szBefore = false then
      { ok := false, failSide := some Side.before, usageError := false }
    else if check_poison m (pc + readLen m pc cfg.lenW - cfg.szAfter) cfg.szAfter = false then
      { ok := false, failSide := some Side.after, usageError := false }
    else
      { ok := true, failSide := none, usageError := false }

/-- `get_poisoned` from the source: for a non-null pointer and nonzero
`size_w_poison`, poison the pre-guard after the length field and the
post-guard ending at `ptr + size_w_poison`, store the (cast) total size in
the length field, and return the first non-poisoned byte; otherwise pass the
pointer through with memory untouched. Returns (new memory, returned pointer). -/
def get_poisoned (cfg : Config) (m : Mem) (ptr : Option Nat) (sizeWPoison : Nat) :
    Mem × Option Nat :=
  match ptr with
  | some p =>
    if sizeWPoison ≠ 0 then
      let m1 := put_poison m (p + cfg.lenW) cfg.szBefore
      let m2 := put_poison m1 (p + sizeWPoison - cfg.szAfter) cfg.szAfter
      let m3 := storeLen m2 p sizeWPoison cfg.lenW
      (m3, some (p + cfg.lenW + cfg.szBefore))
    else
      (m, some p)
  | none => (m, none)

/-- `get_unpoisoned` from the source: translate a non-null user pointer back
by `sizeof(UMM_POISONED_BLOCK_LEN_TYPE) + UMM_POISON_SIZE_BEFORE`, resolve
the owning block index by truncated division of the offset from the heap
base by the block stride (stored into a `uint16_t`, hence `% 65536`), and
run `check_poison_block` on that block purely as a diagnostic. Returns the
raw pointer together with the diagnostic result (the C code discards it). -/
def get_unpoisoned (cfg : Config) (H : Heap) (m : Mem) (ptr : Option Nat) :
    Option Nat × Option CheckResult :=
  match ptr with
  | none => (none, none)
  | some p =>
    let raw := p - (cfg.lenW + cfg.szBefore)
    let c := ((raw - H.base) / H.blockSize) % 65536
    (some raw, some (check_poison_block cfg H m c))

/-- `umm_poison_malloc` from the source, with the external `umm_malloc`
supplied as an oracle from requested size to result pointer. -/
def umm_poison_malloc (cfg : Config) (alloc : Nat → Option Nat) (m : Mem) (size : Nat) :
    Mem × Option Nat :=
  let size' := size + poison_size cfg size
  get_poisoned cfg m (alloc size') size'

/-- `umm_poison_calloc` from the source: inflate `num * item_size`, call the
external allocator, zero-fill the whole inflated region when the allocation
succeeded, then stamp the poison. -/
def umm_poison_calloc (cfg : Config) (alloc : Nat → Option Nat) (m : Mem)
    (num itemSize : Nat) : Mem × Option Nat :=
  let size := itemSize * num
  let size' := size + poison_size cfg size
  let ret := alloc size'
  let m1 := match ret with
    | some p => memset m p 0 size'
    | none => m
  get_poisoned cfg m1 ret size'

/-- `umm_poison_realloc` from the source, with the external `umm_realloc`
supplied as an oracle (its own memory effects are outside this subsystem and
are not modelled). Returns (memory after this subsystem writes, returned
pointer, the diagnostic check result produced by `get_unpoisoned`). -/
def umm_poison_realloc (cfg : Config) (H : Heap)
    (reallocOracle : Option Nat → Nat → Option Nat) (m : Mem)
    (ptr : Option Nat) (size : Nat) : Mem × Option Nat × Option CheckResult :=
  let t := get_unpoisoned cfg H m ptr
  let size' := size + poison_size cfg size
  let ret := reallocOracle t.1 size'
  let r := get_poisoned cfg m ret size'
  (r.1, r.2, t.2)

/-- The loop of `umm_poison_check` from the source, fuel-indexed (the C loop
has no step bound; `none` means the fuel ran out before the walk finished).
Instrumented with two traces: the list of blocks the loop body visited, and
the sublist of those on which `check_poison_block` was invoked. The boolean
component is exactly what the C function computes. -/
def poison_check_loop (cfg : Config) (H : Heap) (m : Mem) :
    Nat → Nat → Option (Bool × List Nat × List Nat)
  | _, 0 => none
  | cur, fuel + 1 =>
    if H.nblock cur &&& UMM_BLOCKNO_MASK = 0 then
      some (true, [], [])
    else if H.nblock cur &&& UMM_FREELIST_MASK = 0 then
      if (check_poison_block cfg H m cur).ok then
        match poison_check_loop cfg H m (H.nblock cur &&& UMM_BLOCKNO_MASK) fuel with
        | none => none
        | some (r, vis, chk) => some (r, cur :: vis, cur :: chk)
      else
        some (false, [cur], [cur])
    else
      match poison_check_loop cfg H m (H.nblock cur &&& UMM_BLOCKNO_MASK) fuel with
      | none => none
      | some (r, vis, chk) => some (r, cur :: vis, chk)

/-- `umm_poison_check` from the source: run the loop starting from the
masked successor of block 0 and return its boolean result. -/
def umm_poison_check (cfg : Config) (H : Heap) (m : Mem) (fuel : Nat) : Option Bool :=
  (poison_check_loop cfg H m (H.nblock 0 &&& UMM_BLOCKNO_MASK) fuel).map Prod.fst

/-- A used block is intact when every pre-guard byte and every post-guard
byte (at the locations the verifier derives from the stored length field)
holds the sentinel value. -/
def blockIntact (cfg : Config) (H : Heap) (m : Mem) (b : Nat) : Prop :=
  (∀ i < cfg.szBefore, m (H.dataAddr b + cfg.lenW + i) = POISON_BYTE) ∧
  (∀ i < cfg.szAfter,
    m (H.dataAddr b + readLen m (H.dataAddr b) cfg.lenW - cfg.szAfter + i) = POISON_BYTE)

/-! Pointwise descriptions of the memory primitives. -/

theorem writeByte_apply (m : Mem) (a v x : Nat) :
    writeByte m a v x = if x = a then v else m x := rfl

theorem memset_apply (n : Nat) : ∀ (m : Mem) (a v x : Nat),
    memset m a v n x = if a ≤ x ∧ x < a + n then v else m x := by
  induction n with
  | zero =>
    intro m a v x
    simp only [memset]
    rw [if_neg (by omega)]
  | succ n ih =>
    intro m a v x
    simp only [memset]
    rw [ih]
    simp only [writeByte]
    by_cases hx : x = a
    · subst hx
      rw [if_neg (by omega), if_pos rfl, if_pos (by omega)]
    · rw [if_neg hx]
      by_cases hin : a + 1 ≤ x ∧ x < a + 1 + n
      · rw [if_pos hin, if_pos (by omega)]
      · rw [if_neg hin, if_neg (by omega)]

theorem storeLen_apply_out : ∀ (w : Nat) (m : Mem) (a v x : Nat),
    (x < a ∨ a + w ≤ x) → storeLen m a v w x = m x := by
  intro w
  induction w with
  | zero => intro m a v x _; rfl
  | succ w ih =>
    intro m a v x hx
    simp only [storeLen]
    rw [ih _ _ _ _ (by omega)]
    simp only [writeByte]
    rw [if_neg (by omega)]

theorem readLen_congr : ∀ (w : Nat) (m1 m2 : Mem) (a : Nat),
    (∀ i < w, m1 (a + i) = m2 (a + i)) → readLen m1 a w = readLen m2 a w := by
  intro w
  induction w with
  | zero => intro m1 m2 a _; rfl
  | succ w ih =>
    intro m1 m2 a h
    simp only [readLen]
    have h0 : m1 a = m2 a := by simpa using h 0 (by omega)
    rw [h0, ih m1 m2 (a + 1) (fun i hi => by
      have := h (1 + i) (by omega)
      simpa [Nat.add_assoc] using this)]

theorem mod_mul_split (v N : Nat) (hN : 0 < N) :
    v % (256 * N) = v % 256 + 256 * (v / 256 % N) := by
  have h1 : v = 256 * N * (v / 256 / N) + (256 * (v / 256 % N) + v % 256) := by
    calc v = 256 * (v / 256) + v % 256 := (Nat.div_add_mod v 256).symm
    _ = 256 * (N * (v / 256 / N) + v / 256 % N) + v % 256 := by
        rw [Nat.div_add_mod (v / 256) N]
    _ = 256 * N * (v / 256 / N) + (256 * (v / 256 % N) + v % 256) := by ring
  have b1 : v / 256 % N < N := Nat.mod_lt _ hN
  have b2 : v % 256 < 256 := Nat.mod_lt _ (by omega)
  have b3 : 256 * (v / 256 % N) ≤ 256 * (N - 1) := Nat.mul_le_mul_left _ (by omega)
  calc v % (256 * N)
      = (256 * N * (v / 256 / N) + (256 * (v / 256 % N) + v % 256)) % (256 * N) := by
        rw [← h1]
  _ = ((256 * (v / 256 % N) + v % 256) + 256 * N * (v / 256 / N)) % (256 * N) := by
        ring_nf
  _ = (256 * (v / 256 % N) + v % 256) % (256 * N) := by
        rw [Nat.add_mul_mod_self_left]
  _ = 256 * (v / 256 % N) + v % 256 := Nat.mod_eq_of_lt (by omega)
  _ = v % 256 + 256 * (v / 256 % N) := by ring

theorem readLen_storeLen : ∀ (w : Nat) (m : Mem) (a v : Nat),
    readLen (storeLen m a v w) a w = v % 256 ^ w := by
  intro w
  induction w with
  | zero => intro m a v; simp [readLen, Nat.mod_one]
  | succ w ih =>
    intro m a v
    simp only [storeLen, readLen]
    rw [storeLen_apply_out w _ (a + 1) (v / 256) a (by omega)]
    simp only [writeByte, if_pos rfl]
    rw [ih]
    have hpow : (256 : Nat) ^ (w + 1) = 256 * 256 ^ w := by ring
    rw [hpow, mod_mul_split v (256 ^ w) (Nat.pos_pow_of_pos w (by omega))]
    simp

/-! Facts about the sentinel scan `check_poison`. -/

theorem check_poison_true_iff : ∀ (n : Nat) (m : Mem) (a : Nat),
    check_poison m a n = true ↔ ∀ i < n, m (a + i) = POISON_BYTE := by
  intro n
  induction n with
  | zero => intro m a; simp [check_poison]
  | succ n ih =>
    intro m a
    simp only [check_poison]
    by_cases h : m a = POISON_BYTE
    · rw [if_pos h, ih]
      constructor
      · intro hall i hi
        match i with
        | 0 => simpa using h
        | j + 1 =>
          have := hall j (by omega)
          simpa [Nat.add_comm, Nat.add_assoc, Nat.add_left_comm] using this
      · intro hall i hi
        have := hall (i + 1) (by omega)
        simpa [Nat.add_comm, Nat.add_assoc, Nat.add_left_comm] using this
    · rw [if_neg h]
      constructor
      · intro hfalse; exact absurd hfalse (by simp)
      · intro hall
        exact absurd (by simpa using hall 0 (by omega)) h

theorem check_poison_false_of (m : Mem) (a n i : Nat) (hi : i < n)
    (hbyte : m (a + i) ≠ POISON_BYTE) : check_poison m a n = false := by
  cases hcp : check_poison m a n with
  | false => rfl
  | true =>
    exact absurd ((check_poison_true_iff n m a).1 hcp i hi) hbyte

theorem check_poison_true_of (m : Mem) (a n : Nat)
    (h : ∀ i < n, m (a + i) = POISON_BYTE) : check_poison m a n = true :=
  (check_poison_true_iff n m a).2 h

/-! What `get_poisoned` does to memory. `stampMem` names the memory produced
by its three write statements (pre-guard memset, post-guard memset, length
field store), in source order. -/

def stampMem (cfg : Config) (m : Mem) (p size : Nat) : Mem :=
  storeLen (memset (memset m (p + cfg.lenW) POISON_BYTE cfg.szBefore)
    (p + size - cfg.szAfter) POISON_BYTE cfg.szAfter) p size cfg.lenW

theorem get_poisoned_eq (cfg : Config) (m : Mem) (p size : Nat) (h : size ≠ 0) :
    get_poisoned cfg m (some p) size =
      (stampMem cfg m p size, some (p + cfg.lenW + cfg.szBefore)) := by
  simp [get_poisoned, stampMem, put_poison, h]

theorem get_poisoned_none (cfg : Config) (m : Mem) (size : Nat) :
    get_poisoned cfg m none size = (m, none) := rfl

theorem get_poisoned_zero (cfg : Config) (m : Mem) (ptr : Option Nat) :
    get_poisoned cfg m ptr 0 = (m, ptr) := by
  cases ptr <;> simp [get_poisoned]

theorem stampMem_pre (cfg : Config) (m : Mem) (p size : Nat) :
    ∀ i < cfg.szBefore, stampMem cfg m p size (p + cfg.lenW + i) = POISON_BYTE := by
  intro i hi
  unfold stampMem
  rw [storeLen_apply_out _ _ _ _ _ (by omega), memset_apply]
  by_cases hin : p + size - cfg.szAfter ≤ p + cfg.lenW + i ∧
      p + cfg.lenW + i < p + size - cfg.szAfter + cfg.szAfter
  · rw [if_pos hin]
  · rw [if_neg hin, memset_apply, if_pos (by omega)]

theorem stampMem_post (cfg : Config) (m : Mem) (p size : Nat)
    (h : cfg.lenW + cfg.szAfter ≤ size) :
    ∀ i < cfg.szAfter, stampMem cfg m p size (p + size - cfg.szAfter + i) = POISON_BYTE := by
  intro i hi
  unfold stampMem
  rw [storeLen_apply_out _ _ _ _ _ (by omega), memset_apply, if_pos (by omega)]

theorem stampMem_readLen (cfg : Config) (m : Mem) (p size : Nat) :
    readLen (stampMem cfg m p size) p cfg.lenW = size % 256 ^ cfg.lenW := by
  unfold stampMem
  exact readLen_storeLen cfg.lenW _ p size

theorem stampMem_user (cfg : Config) (m : Mem) (p size : Nat) :
    ∀ x, p + cfg.lenW + cfg.szBefore ≤ x → x < p + size - cfg.szAfter →
      stampMem cfg m p size x = m x := by
  intro x h1 h2
  unfold stampMem
  rw [storeLen_apply_out _ _ _ _ _ (by omega), memset_apply, if_neg (by omega),
    memset_apply, if_neg (by omega)]

theorem stampMem_outside (cfg : Config) (m : Mem) (p size : Nat)
    (hb : cfg.lenW + cfg.szBefore ≤ size) (ha : cfg.szAfter ≤ size) :
    ∀ x, x < p ∨ p + size ≤ x → stampMem cfg m p size x = m x := by
  intro x hx
  unfold stampMem
  rw [storeLen_apply_out _ _ _ _ _ (by omega), memset_apply, if_neg (by omega),
    memset_apply, if_neg (by omega)]

/-! An intact used block passes `check_poison_block`. -/

theorem check_ok_of_intact (cfg : Config) (H : Heap) (m : Mem) (b : Nat)
    (h : blockIntact cfg H m b) : (check_poison_block cfg H m b).ok = true := by
  obtain ⟨hpre, hpost⟩ := h
  simp only [check_poison_block]
  by_cases hfree : H.nblock b &&& UMM_FREELIST_MASK ≠ 0
  · rw [if_pos hfree]
  · rw [if_neg hfree]
    rw [check_poison_true_of _ _ _ hpre, check_poison_true_of _ _ _ hpost]
    simp

/-! The master invariant of the heap-walk loop. -/

theorem poison_check_loop_spec (cfg : Config) (H : Heap) (m : Mem) :
    ∀ (fuel cur : Nat) (res : Bool) (vis chk : List Nat),
      poison_check_loop cfg H m cur fuel = some (res, vis, chk) →
      (vis.head? = some cur ∨ vis = [])
      ∧ List.Chain' (fun a b => b = H.nblock a &&& UMM_BLOCKNO_MASK) vis
      ∧ chk = vis.filter (fun b => H.nblock b &&& UMM_FREELIST_MASK == 0)
      ∧ (∀ b ∈ vis, H.nblock b &&& UMM_BLOCKNO_MASK ≠ 0)
      ∧ ((∀ b ∈ chk, (check_poison_block cfg H m b).ok = true) → res = true)
      ∧ (res = false → ∃ c0 bad, chk = c0 ++ [bad]
            ∧ (check_poison_block cfg H m bad).ok = false
            ∧ (∀ b ∈ c0, (check_poison_block cfg H m b).ok = true)
            ∧ vis.getLast? = some bad)
      ∧ (res = true → ∀ b ∈ chk, (check_poison_block cfg H m b).ok = true) := by
  intro fuel
  induction fuel with
  | zero =>
    intro cur res vis chk h
    simp [poison_check_loop] at h
  | succ fuel ih =>
    intro cur res vis chk h
    simp only [poison_check_loop] at h
    by_cases hterm : H.nblock cur &&& UMM_BLOCKNO_MASK = 0
    · rw [if_pos hterm] at h
      simp only [Option.some.injEq, Prod.mk.injEq] at h
      obtain ⟨hres, hvis, hchk⟩ := h
      subst hres; subst hvis; subst hchk
      refine ⟨Or.inr rfl, by simp, by simp, by simp, fun _ => rfl, by simp, by simp⟩
    · rw [if_neg hterm] at h
      by_cases hfree : H.nblock cur &&& UMM_FREELIST_MASK = 0
      · rw [if_pos hfree] at h
        by_cases hok : (check_poison_block cfg H m cur).ok = true
        · rw [if_pos hok] at h
          cases hrec : poison_check_loop cfg H m (H.nblock cur &&& UMM_BLOCKNO_MASK) fuel with
          | none => rw [hrec] at h; simp at h
          | some t =>
            obtain ⟨r, vis', chk'⟩ := t
            rw [hrec] at h
            simp only [Option.some.injEq, Prod.mk.injEq] at h
            obtain ⟨hres, hvis, hchk⟩ := h
            subst hres; subst hvis; subst hchk
            obtain ⟨ihhead, ihchain, ihfilter, ihsucc, ihok, ihfail, ihtrue⟩ :=
              ih _ r vis' chk' hrec
            have hfcur : (H.nblock cur &&& UMM_FREELIST_MASK == 0) = true := by
              simpa using hfree
            refine ⟨Or.inl rfl, ?_, ?_, ?_, ?_, ?_, ?_⟩
            · refine List.chain'_cons'.mpr ⟨?_, ihchain⟩
              intro y hy
              rcases ihhead with hh | hh
              · rw [hh, Option.mem_def, Option.some.injEq] at hy; exact hy.symm
              · rw [hh] at hy; simp at hy
            · simp [List.filter_cons, hfcur, ihfilter]
            · intro b hb
              rcases List.mem_cons.mp hb with hb | hb
              · subst hb; exact hterm
              · exact ihsucc b hb
            · intro hall
              exact ihok fun b hb => hall b (List.mem_cons_of_mem _ hb)
            · intro hr
              obtain ⟨c0, bad, hchk', hbad, hc0, hlast⟩ := ihfail hr
              refine ⟨cur :: c0, bad, by simp [hchk'], hbad, ?_, ?_⟩
              · intro b hb
                rcases List.mem_cons.mp hb with hb | hb
                · subst hb; exact hok
                · exact hc0 b hb
              · cases vis' with
                | nil => rw [List.getLast?_nil] at hlast; exact absurd hlast (by simp)
                | cons a l => rw [List.getLast?_cons_cons]; exact hlast
            · intro hr b hb
              rcases List.mem_cons.mp hb with hb | hb
              · subst hb; exact hok
              · exact ihtrue hr b hb
        · rw [if_neg hok] at h
          simp only [Option.some.injEq, Prod.mk.injEq] at h
          obtain ⟨hres, hvis, hchk⟩ := h
          subst hres; subst hvis; subst hchk
          have hbadok : (check_poison_block cfg H m cur).ok = false := by
            simpa using hok
          refine ⟨Or.inl rfl, by simp, by simp [hfree], ?_, ?_, ?_, ?_⟩
          · intro b hb
            rcases List.mem_cons.mp hb with hb | hb
            · subst hb; exact hterm
            · simp at hb
          · intro hall
            exact absurd (hall cur (by simp)) hok
          · intro _
            exact ⟨[], cur, by simp, hbadok, by simp, by simp⟩
          · intro hr
            exact absurd hr (by simp)
      · rw [if_neg hfree] at h
        cases hrec : poison_check_loop cfg H m (H.nblock cur &&& UMM_BLOCKNO_MASK) fuel with
        | none => rw [hrec] at h; simp at h
        | some t =>
          obtain ⟨r, vis', chk'⟩ := t
          rw [hrec] at h
          simp only [Option.some.injEq, Prod.mk.injEq] at h
          obtain ⟨hres, hvis, hchk⟩ := h
          subst hres; subst hvis; subst hchk
          obtain ⟨ihhead, ihchain, ihfilter, ihsucc, ihok, ihfail, ihtrue⟩ :=
            ih _ r vis' chk' hrec
          have hfcur : (H.nblock cur &&& UMM_FREELIST_MASK == 0) = false := by
            simpa using hfree
          refine ⟨Or.inl rfl, ?_, ?_, ?_, ihok, ?_, ihtrue⟩
          · refine List.chain'_cons'.mpr ⟨?_, ihchain⟩
            intro y hy
            rcases ihhead with hh | hh
            · rw [hh, Option.mem_def, Option.some.injEq] at hy; exact hy.symm
            · rw [hh] at hy; simp at hy
          · simp [List.filter_cons, hfcur, ihfilter]
          · intro b hb
            rcases List.mem_cons.mp hb with hb | hb
            · subst hb; exact hterm
            · exact ihsucc b hb
          · intro hr
            obtain ⟨c0, bad, hchk', hbad, hc0, hlast⟩ := ihfail hr
            refine ⟨c0, bad, hchk', hbad, hc0, ?_⟩
            cases vis' with
            | nil => rw [List.getLast?_nil] at hlast; exact absurd hlast (by simp)
            | cons a l => rw [List.getLast?_cons_cons]; exact hlast

/-- The used-block branch of `check_poison_block`, spelled out. -/
theorem check_poison_block_used (cfg : Config) (H : Heap) (m : Mem) (b : Nat)
    (hfree : H.nblock b &&& UMM_FREELIST_MASK = 0) :
    check_poison_block cfg H m b =
      (if check_poison m (H.dataAddr b + cfg.lenW) cfg.szBefore = false then
        { ok := false, failSide := some Side.before, usageError := false }
      else if check_poison m
          (H.dataAddr b + readLen m (H.dataAddr b) cfg.lenW - cfg.szAfter)
          cfg.szAfter = false then
        { ok := false, failSide := some Side.after, usageError := false }
      else { ok := true, failSide := none, usageError := false }) := by
  unfold check_poison_block
  rw [if_neg (by simp [hfree])]

/-! Concrete instances used by the witnesses below. -/

/-- The all-zero memory. -/
def zeroMem : Mem := fun _ => 0

/-- Witness configuration: 2-byte length field, 1-byte guards. -/
def cfgW : Config := ⟨2, 1, 1⟩

/-- Witness heap: block 0 links to block 1; block 1 is used with successor
field 2; block 2 has successor field 0 and terminates the walk. -/
def heapW : Heap where
  nblock := fun b => if b = 0 then 1 else if b = 1 then 2 else 0
  dataAddr := fun b => 10 * b
  base := 0
  blockSize := 10

/-- Witness memory: the data area of block 1 (address 10) stamped with total
size 5 = 1 user byte + 4 overhead under `cfgW`. -/
def memW : Mem := (get_poisoned cfgW zeroMem (some 10) 5).1

/-- Witness heap whose every block has the free-tag bit set. -/
def heapFreeW : Heap where
  nblock := fun _ => 0x8000
  dataAddr := fun _ => 0
  base := 0
  blockSize := 1

/-- Witness heap for the corruption claim: one used block with data at 20. -/
def heapC2 : Heap where
  nblock := fun _ => 0
  dataAddr := fun _ => 20
  base := 0
  blockSize := 1

/-- C6: the Geometry Calculator `poison_size` returns 0 when the requested
size is 0 and, for every nonzero requested size, the constant
`length-field-size + pre-guard-size + post-guard-size`, independent of the
requested size; it is a pure total function with no failure mode. -/
theorem poison_size_spec (cfg : Config) (s : Nat) :
    poison_size cfg s = if s = 0 then 0 else cfg.lenW + cfg.szBefore + cfg.szAfter := by
  unfold poison_size
  by_cases h : s = 0
  · simp [h]
  · simp [h]
    ring

/-- C5: `get_unpoisoned` returns `p − (length-field-size + pre-guard-size)`
for every non-null user pointer `p`, unconditionally: the pointer component
is the same for every memory, so the embedded diagnostic verification can
never change it, and a null input passes through as null. -/
theorem get_unpoisoned_fail_open (cfg : Config) (H : Heap) (m : Mem) (p : Nat) :
    (get_unpoisoned cfg H m (some p)).1 = some (p - (cfg.lenW + cfg.szBefore))
    ∧ (get_unpoisoned cfg H m none).1 = none
    ∧ (∀ m2 : Mem, (get_unpoisoned cfg H m2 (some p)).1 = (get_unpoisoned cfg H m (some p)).1) :=
  ⟨rfl, rfl, fun _ => rfl⟩

/-- C7: calling `check_poison_block` on a block whose free-tag bit is set
yields the constant result `⟨ok := true, failSide := none, usageError := true⟩`
for every memory: the usage error is logged, no guard byte is examined (the
result does not depend on the memory at all), no corruption side is
reported, and the call does not return fail. -/
theorem check_free_block_not_fail (cfg : Config) (H : Heap) (m : Mem) (b : Nat)
    (h : H.nblock b &&& UMM_FREELIST_MASK ≠ 0) :
    check_poison_block cfg H m b = ⟨true, none, true⟩ := by
  unfold check_poison_block
  rw [if_pos h]

/-- Witness for C7 at a concrete free block. -/
theorem check_free_block_not_fail_witness :
    check_poison_block cfgW heapFreeW zeroMem 0 = ⟨true, none, true⟩ :=
  check_free_block_not_fail cfgW heapFreeW zeroMem 0 (by decide)

/-- C10: `umm_poison_realloc(p, 0)` on a non-null user pointer translates
`p` back to the raw pointer, runs the diagnostic check on the resolved
block, calls the external resize with size `0 + poison_size 0 = 0`, and
returns the external result unchanged: the subsystem writes no poison and
no length field (memory is returned as given) and adds no user-pointer
offset to the external result. -/
theorem realloc_zero_passthrough (cfg : Config) (H : Heap)
    (orc : Option Nat → Nat → Option Nat) (m : Mem) (p : Nat) :
    umm_poison_realloc cfg H orc m (some p) 0 =
      (m, orc (some (p - (cfg.lenW + cfg.szBefore))) 0,
        some (check_poison_block cfg H m
          ((p - (cfg.lenW + cfg.szBefore) - H.base) / H.blockSize % 65536))) := by
  have hps : (0 : Nat) + poison_size cfg 0 = 0 := by simp [poison_size]
  simp only [umm_poison_realloc, get_unpoisoned, hps, get_poisoned_zero]

/-- C3 as stated fails at small totals: with a 2-byte length field and
4-byte guards, stamping total size 1 at raw pointer 100 leaves address
100 = raw + total − post-guard-size + 3 — inside the claimed post-guard
window ending at raw + total — holding the stored length byte 1, not the
sentinel: the length-field store, executed last, overwrites part of the
claimed post-guard window whenever total < length-field-size + post-guard-size. -/
theorem get_poisoned_tiny_total_cex :
    (get_poisoned ⟨2, 4, 4⟩ zeroMem (some 100) 1).1 (100 + 1 - 4 + 3) ≠ POISON_BYTE := by
  decide

/-- C3 (amended): a null pointer or zero total passes through with no byte
written; for a positive total the returned pointer is
`raw + length-field-size + pre-guard-size` and the pre-guard is filled with
the sentinel; and provided `length-field-size + post-guard-size ≤ total`
(which holds at every call site, where the total is 0 or includes the full
overhead) the post-guard bytes ending at `raw + total` hold the sentinel. -/
theorem get_poisoned_stamp_spec (cfg : Config) (m : Mem) (p size : Nat) :
    (get_poisoned cfg m none size = (m, none))
    ∧ (get_poisoned cfg m (some p) 0 = (m, some p))
    ∧ (0 < size →
        (get_poisoned cfg m (some p) size).2 = some (p + cfg.lenW + cfg.szBefore))
    ∧ (0 < size →
        ∀ i < cfg.szBefore,
          (get_poisoned cfg m (some p) size).1 (p + cfg.lenW + i) = POISON_BYTE)
    ∧ (cfg.lenW + cfg.szAfter ≤ size →
        ∀ i < cfg.szAfter,
          (get_poisoned cfg m (some p) size).1 (p + size - cfg.szAfter + i) = POISON_BYTE) := by
  refine ⟨get_poisoned_none cfg m size, get_poisoned_zero cfg m (some p), ?_, ?_, ?_⟩
  · intro hs
    rw [get_poisoned_eq cfg m p size (by omega)]
  · intro hs i hi
    have hmem : (get_poisoned cfg m (some p) size).1 = stampMem cfg m p size := by
      rw [get_poisoned_eq cfg m p size (by omega)]
    rw [hmem]
    exact stampMem_pre cfg m p size i hi
  · intro hle i hi
    by_cases hs0 : size = 0
    · omega
    · have hmem : (get_poisoned cfg m (some p) size).1 = stampMem cfg m p size := by
        rw [get_poisoned_eq cfg m p size hs0]
      rw [hmem]
      exact stampMem_post cfg m p size hle i hi

/-- Witness for the amended C3: lenW = 2, guards 4/4, total 11, raw 0. -/
theorem get_poisoned_stamp_spec_witness :
    0 < 11 ∧ 2 + 4 ≤ 11
    ∧ (get_poisoned ⟨2, 4, 4⟩ zeroMem (some 0) 11).2 = some 6 := by
  refine ⟨by decide, by decide, ?_⟩
  have h := (get_poisoned_stamp_spec ⟨2, 4, 4⟩ zeroMem 0 11).2.2.1 (by decide)
  simpa using h

/-- C4 as stated fails: with a 1-byte length field, stamping total size 257
stores 257 mod 256 = 1 in the length field — the cast to
`UMM_POISONED_BLOCK_LEN_TYPE` truncates, so the stored value is not the
exact `total_size` once it exceeds the configured field width. -/
theorem stored_length_truncation_cex :
    readLen ((get_poisoned ⟨1, 4, 4⟩ zeroMem (some 0) 257).1) 0 1 ≠ 257 := by
  decide

/-- C4 (amended): the length field after the stamp holds
`total_size mod 256 ^ length-field-size` (the truncating cast), and whenever
`total_size` fits the configured width the stored value equals the exact
`total_size`; `readLen` is precisely the load `check_poison_block` performs
on the length field, so the verifier recovers the same stored value. -/
theorem stored_length_mod (cfg : Config) (m : Mem) (p size : Nat) (hs : 0 < size) :
    readLen ((get_poisoned cfg m (some p) size).1) p cfg.lenW = size % 256 ^ cfg.lenW
    ∧ (size < 256 ^ cfg.lenW →
        readLen ((get_poisoned cfg m (some p) size).1) p cfg.lenW = size) := by
  have hmem : (get_poisoned cfg m (some p) size).1 = stampMem cfg m p size := by
    rw [get_poisoned_eq cfg m p size (by omega)]
  have h : readLen ((get_poisoned cfg m (some p) size).1) p cfg.lenW
      = size % 256 ^ cfg.lenW := by
    rw [hmem]
    exact stampMem_readLen cfg m p size
  exact ⟨h, fun hfit => by rw [h]; exact Nat.mod_eq_of_lt hfit⟩

/-- Witness for the amended C4: a fitting total size 20 is stored exactly. -/
theorem stored_length_mod_witness :
    0 < 20 ∧ readLen ((get_poisoned ⟨2, 4, 4⟩ zeroMem (some 0) 20).1) 0 2 = 20 :=
  ⟨by decide, (stored_length_mod ⟨2, 4, 4⟩ zeroMem 0 20 (by decide)).2 (by decide)⟩

/-- C2: stamp a block of user size `s > 0` (total fitting the length-field
width, the configuration contract) at the data area of a used block, then
overwrite any single byte of either guard region with a byte other than the
sentinel: the next `check_poison_block` on that block returns fail, and the
reported side is `before` exactly when the byte lies in the pre-guard and
`after` when it lies in the post-guard. -/
theorem corrupt_guard_detected (cfg : Config) (H : Heap) (m0 : Mem)
    (b p s total addr v : Nat)
    (hfree : H.nblock b &&& UMM_FREELIST_MASK = 0)
    (hp : H.dataAddr b = p)
    (hs : 0 < s)
    (htotal : total = s + (cfg.szBefore + cfg.lenW + cfg.szAfter))
    (hfit : total < 256 ^ cfg.lenW)
    (haddr : (p + cfg.lenW ≤ addr ∧ addr < p + cfg.lenW + cfg.szBefore)
           ∨ (p + total - cfg.szAfter ≤ addr ∧ addr < p + total))
    (_hv : v < 256) (hvne : v ≠ POISON_BYTE) :
    check_poison_block cfg H
        (writeByte ((get_poisoned cfg m0 (some p) total).1) addr v) b =
      if addr < p + cfg.lenW + cfg.szBefore
      then ⟨false, some Side.before, false⟩
      else ⟨false, some Side.after, false⟩ := by
  have hts : total ≠ 0 := by omega
  have hmem : (get_poisoned cfg m0 (some p) total).1 = stampMem cfg m0 p total := by
    rw [get_poisoned_eq cfg m0 p total hts]
  rw [hmem]
  set m2 := writeByte (stampMem cfg m0 p total) addr v with hm2
  have hpre1 := stampMem_pre cfg m0 p total
  have hpost1 := stampMem_post cfg m0 p total (by omega)
  have hlen1 : readLen (stampMem cfg m0 p total) p cfg.lenW = total := by
    rw [stampMem_readLen cfg m0 p total]
    exact Nat.mod_eq_of_lt hfit
  rw [check_poison_block_used cfg H m2 b hfree, hp]
  rcases haddr with ⟨ha1, ha2⟩ | ⟨ha1, ha2⟩
  · have hcf : check_poison m2 (p + cfg.lenW) cfg.szBefore = false := by
      apply check_poison_false_of m2 (p + cfg.lenW) cfg.szBefore (addr - (p + cfg.lenW))
        (by omega)
      have he : p + cfg.lenW + (addr - (p + cfg.lenW)) = addr := by omega
      rw [he, hm2, writeByte_apply, if_pos rfl]
      exact hvne
    rw [if_pos hcf, if_pos ha2]
  · have hnear : m2 = writeByte (stampMem cfg m0 p total) addr v := hm2
    have hpreOK : check_poison m2 (p + cfg.lenW) cfg.szBefore = true := by
      apply check_poison_true_of
      intro i hi
      have hne : p + cfg.lenW + i ≠ addr := by omega
      rw [hnear, writeByte_apply, if_neg hne]
      exact hpre1 i hi
    have hlen2 : readLen m2 p cfg.lenW = total := by
      have hc := readLen_congr cfg.lenW m2 (stampMem cfg m0 p total) p
        (fun i hi => by rw [hnear, writeByte_apply, if_neg (by omega)])
      rw [hc, hlen1]
    have hcf2 : check_poison m2 (p + total - cfg.szAfter) cfg.szAfter = false := by
      apply check_poison_false_of m2 (p + total - cfg.szAfter) cfg.szAfter
        (addr - (p + total - cfg.szAfter)) (by omega)
      have he : p + total - cfg.szAfter + (addr - (p + total - cfg.szAfter)) = addr := by
        omega
      rw [he, hnear, writeByte_apply, if_pos rfl]
      exact hvne
    rw [hlen2, if_neg (by simp [hpreOK]), if_pos hcf2, if_neg (by omega)]

/-- Witness for C2: one corrupt pre-guard byte at a concrete block. -/
theorem corrupt_guard_detected_witness :
    check_poison_block ⟨1, 1, 1⟩ heapC2
        (writeByte ((get_poisoned ⟨1, 1, 1⟩ zeroMem (some 20) 4).1) 21 0) 0 =
      ⟨false, some Side.before, false⟩ := by
  have h := corrupt_guard_detected ⟨1, 1, 1⟩ heapC2 zeroMem 0 20 1 4 21 0
    (by decide) (by decide) (by decide) (by decide) (by decide)
    (Or.inl (by decide)) (by decide) (by decide)
  simpa using h

/-- C8: when `count * item_size > 0`, the external allocation succeeds, and
the inflated total fits the length-field width, `umm_poison_calloc`
zero-fills exactly the `total` allocated bytes and only then stamps: the
returned pointer is the user pointer, the final length field holds the
total, both guard regions hold the sentinel (they are not left zeroed), the
user region between the guards is zero, and no byte outside the allocation
is touched. -/
theorem calloc_zero_fill_then_stamp (cfg : Config) (alloc : Nat → Option Nat)
    (m : Mem) (num itemSize p total : Nat)
    (htotal : total = itemSize * num + (cfg.szBefore + cfg.lenW + cfg.szAfter))
    (hpos : 0 < itemSize * num)
    (halloc : alloc total = some p)
    (hfit : total < 256 ^ cfg.lenW) :
    (umm_poison_calloc cfg alloc m num itemSize).2 = some (p + cfg.lenW + cfg.szBefore)
    ∧ readLen (umm_poison_calloc cfg alloc m num itemSize).1 p cfg.lenW = total
    ∧ (∀ i < cfg.szBefore,
        (umm_poison_calloc cfg alloc m num itemSize).1 (p + cfg.lenW + i) = POISON_BYTE)
    ∧ (∀ i < cfg.szAfter,
        (umm_poison_calloc cfg alloc m num itemSize).1 (p + total - cfg.szAfter + i)
          = POISON_BYTE)
    ∧ (∀ x, p + cfg.lenW + cfg.szBefore ≤ x → x < p + total - cfg.szAfter →
        (umm_poison_calloc cfg alloc m num itemSize).1 x = 0)
    ∧ (∀ x, x < p ∨ p + total ≤ x →
        (umm_poison_calloc cfg alloc m num itemSize).1 x = m x) := by
  have hsz : itemSize * num + poison_size cfg (itemSize * num) = total := by
    rw [poison_size, if_pos (by omega)]
    omega
  have hcal : umm_poison_calloc cfg alloc m num itemSize =
      (stampMem cfg (memset m p 0 total) p total, some (p + cfg.lenW + cfg.szBefore)) := by
    simp only [umm_poison_calloc, hsz, halloc]
    rw [get_poisoned_eq cfg (memset m p 0 total) p total (by omega)]
  rw [hcal]
  refine ⟨rfl, ?_, ?_, ?_, ?_, ?_⟩
  · show readLen (stampMem cfg (memset m p 0 total) p total) p cfg.lenW = total
    rw [stampMem_readLen]
    exact Nat.mod_eq_of_lt hfit
  · intro i hi
    exact stampMem_pre cfg (memset m p 0 total) p total i hi
  · intro i hi
    exact stampMem_post cfg (memset m p 0 total) p total (by omega) i hi
  · intro x hx1 hx2
    show stampMem cfg (memset m p 0 total) p total x = 0
    rw [stampMem_user cfg (memset m p 0 total) p total x hx1 hx2,
      memset_apply, if_pos (by omega)]
  · intro x hx
    show stampMem cfg (memset m p 0 total) p total x = m x
    rw [stampMem_outside cfg (memset m p 0 total) p total (by omega) (by omega) x hx,
      memset_apply, if_neg (by omega)]

/-- Witness for C8: 1 × 1 byte requested, total 5, placed at address 10. -/
theorem calloc_zero_fill_then_stamp_witness :
    0 < 1 * 1
    ∧ (umm_poison_calloc ⟨2, 1, 1⟩ (fun _ => some 10) zeroMem 1 1).2 = some 13 :=
  ⟨by decide,
    (calloc_zero_fill_then_stamp ⟨2, 1, 1⟩ (fun _ => some 10) zeroMem 1 1 10 5
      (by decide) (by decide) rfl (by decide)).1⟩

/-- C1: whenever the heap-walk loop of `umm_poison_check` terminates, having
visited the block sequence `vis` and invoked the Sentinel Verifier on the
blocks `chk`, then (1) `umm_poison_check` returns that boolean; (2) the walk
starts at the masked successor of block 0; (3) `vis` follows the stored
successor indices masked to the index range; (4) exactly the visited blocks
whose free-tag bit is clear are verified, in walk order — free blocks are
skipped; (5) if every used block of the heap has fully intact guard regions
the scan returns pass; (6) if any verified block fails, the scan returns
fail — pass is returned only when every verified block passed; and (7) on
fail, the last verified block is the one that failed, every earlier verified
block passed, and the walk stopped at it (it is the last visited block — no
later block was scanned). -/
theorem umm_poison_check_scan_correct (cfg : Config) (H : Heap) (m : Mem)
    (fuel : Nat) (res : Bool) (vis chk : List Nat)
    (h : poison_check_loop cfg H m (H.nblock 0 &&& UMM_BLOCKNO_MASK) fuel
      = some (res, vis, chk)) :
    umm_poison_check cfg H m fuel = some res
    ∧ (vis.head? = some (H.nblock 0 &&& UMM_BLOCKNO_MASK) ∨ vis = [])
    ∧ List.Chain' (fun a b => b = H.nblock a &&& UMM_BLOCKNO_MASK) vis
    ∧ chk = vis.filter (fun b => H.nblock b &&& UMM_FREELIST_MASK == 0)
    ∧ ((∀ b, H.nblock b &&& UMM_FREELIST_MASK = 0 → blockIntact cfg H m b) → res = true)
    ∧ (∀ b ∈ chk, (check_poison_block cfg H m b).ok = false → res = false)
    ∧ (res = false → ∃ c0 bad, chk = c0 ++ [bad]
          ∧ (check_poison_block cfg H m bad).ok = false
          ∧ (∀ b ∈ c0, (check_poison_block cfg H m b).ok = true)
          ∧ vis.getLast? = some bad) := by
  obtain ⟨h1, h2, h3, h4, h5, h6, h7⟩ := poison_check_loop_spec cfg H m fuel _ res vis chk h
  refine ⟨?_, h1, h2, h3, ?_, ?_, h6⟩
  · unfold umm_poison_check
    rw [h]
    rfl
  · intro hint
    apply h5
    intro b hb
    rw [h3] at hb
    have hbf := List.of_mem_filter hb
    have hbfree : H.nblock b &&& UMM_FREELIST_MASK = 0 := by simpa using hbf
    exact check_ok_of_intact cfg H m b (hint b hbfree)
  · intro b hb hbad
    cases hres : res with
    | false => rfl
    | true => exact absurd (h7 hres b hb) (by simp [hbad])

/-- Witness for C1: the concrete two-block heap scans to pass, checking
exactly block 1. -/
theorem umm_poison_check_scan_correct_witness :
    umm_poison_check cfgW heapW memW 3 = some true :=
  (umm_poison_check_scan_correct cfgW heapW memW 3 true [1] [1] (by decide)).1

/-- C9: the walk never invokes the Sentinel Verifier on a block whose masked
successor index is 0: the loop tests the successor of the current block
before verifying the current block, so such a block — in particular the
final block reached — is skipped even when its free-tag bit is clear. -/
theorem umm_poison_check_skips_terminator (cfg : Config) (H : Heap) (m : Mem)
    (fuel : Nat) (res : Bool) (vis chk : List Nat) (b : Nat)
    (h : poison_check_loop cfg H m (H.nblock 0 &&& UMM_BLOCKNO_MASK) fuel
      = some (res, vis, chk))
    (hb : H.nblock b &&& UMM_BLOCKNO_MASK = 0) :
    b ∉ chk := by
  obtain ⟨_, _, h3, h4, _, _, _⟩ := poison_check_loop_spec cfg H m fuel _ res vis chk h
  intro hmem
  rw [h3] at hmem
  exact h4 b (List.mem_of_mem_filter hmem) hb

/-- Witness for C9: in the concrete heap, terminator block 2 has a clear
free-tag bit yet is never verified. -/
theorem umm_poison_check_skips_terminator_witness :
    (2 : Nat) ∉ ([1] : List Nat) :=
  umm_poison_check_skips_terminator cfgW heapW memW 3 true [1] [1] 2
    (by decide) (by decide)

end UmmPoison
